import Mathlib

set_option maxRecDepth 2048

/-!
Shallow embedding of the checklist tracker's reconciliation and deadline
engine (`src/app.py`) and of the spreadsheet-id normalizer
(`src/sheets_client.py`), together with theorems settling the frozen
claims about them.

Times of day are modelled as seconds after midnight (`Nat`); Python
`datetime.time` comparison coincides with numeric comparison of the
second count.  Calendar dates are modelled as an abstract linearly
ordered day number (`Int`); the code only ever compares `target_date`
with `now.date()`.  Tabular data (`pandas.DataFrame`) is modelled as a
column-name list together with rows of (column, cell) association
lists, missing cells reading as `""` like the padding in
`load_logs_for_date`.
-/

namespace Checklist

/-- Python whitespace characters removed by `str.strip()`. -/
def isWsPy (c : Char) : Bool :=
  c = ' ' || c = '\t' || c = '\n' || c = '\r' || c = '\x0b' || c = '\x0c'

/-- Python `str.strip()` on a character list: drop leading and trailing whitespace. -/
def stripChars (l : List Char) : List Char :=
  ((l.dropWhile isWsPy).reverse.dropWhile isWsPy).reverse

/-- Python `str.strip()` (also `_safe_str` of `app.py` on a string value). -/
def stripS (s : String) : String :=
  String.mk (stripChars s.data)

/-- Python `str.upper()` restricted to ASCII letters plus the accented
Latin letters that occur in this code base (model of the source's
`.str.upper()` for Portuguese status text). -/
def upperPy (c : Char) : Char :=
  if 'a' ≤ c ∧ c ≤ 'z' then Char.ofNat (c.toNat - 32)
  else if c = 'ã' then 'Ã'
  else if c = 'á' then 'Á'
  else if c = 'à' then 'À'
  else if c = 'â' then 'Â'
  else if c = 'é' then 'É'
  else if c = 'ê' then 'Ê'
  else if c = 'í' then 'Í'
  else if c = 'ó' then 'Ó'
  else if c = 'ô' then 'Ô'
  else if c = 'õ' then 'Õ'
  else if c = 'ú' then 'Ú'
  else if c = 'ç' then 'Ç'
  else c

/-- Python `str.upper()` on a whole string. -/
def pyUpper (s : String) : String :=
  String.mk (s.data.map upperPy)

/-- Status normalization of `load_logs_for_date` (app.py lines 267-269):
strip, uppercase, then replace the two exact variants `"NÃO_OK"` and
`"NAO OK"` by `"NAO_OK"`.  Any other value passes through unchanged. -/
def normalizeStatus (s : String) : String :=
  let u := pyUpper (stripS s)
  if u = "NÃO_OK" then "NAO_OK"
  else if u = "NAO OK" then "NAO_OK"
  else u

/-- A run of 1 or 2 decimal digits read as a number, mirroring one
regex group `(\d{1,2})` or a `%H`/`%M`/`%S` field of `strptime`. -/
def digitVal (c : Char) : Nat := c.toNat - '0'.toNat

/-- The regex `^(\d{1,2}):(\d{2})$` of `_parse_hhmm` (app.py line 101):
returns the two captured groups as numbers when the whole string
matches, `none` otherwise. -/
def matchHHMM (s : String) : Option (Nat × Nat) :=
  match s.data with
  | [a, ':', c, d] =>
      if a.isDigit ∧ c.isDigit ∧ d.isDigit then
        some (digitVal a, digitVal c * 10 + digitVal d)
      else none
  | [a, b, ':', c, d] =>
      if a.isDigit ∧ b.isDigit ∧ c.isDigit ∧ d.isDigit then
        some (digitVal a * 10 + digitVal b, digitVal c * 10 + digitVal d)
      else none
  | _ => none

/-- Embedding of `_parse_hhmm` of app.py (lines 96-108): strip, reject the empty
string, match `^(\d{1,2}):(\d{2})$`, reject out-of-range hour/minute
(the `hh < 0` / `mm < 0` checks of the source are vacuous on the
captured digit groups), and return the time of day in seconds. -/
def parseHHMM (s : String) : Option Nat :=
  let t := stripS s
  if t = "" then none
  else
    match matchHHMM t with
    | none => none
    | some (hh, mm) =>
        if hh > 23 ∨ mm > 59 then none
        else some (hh * 3600 + mm * 60)

/-- One field of 1-2 digits of a `strptime` pattern. -/
def fieldVal (cs : List Char) : Option Nat :=
  match cs with
  | [a] => if a.isDigit then some (digitVal a) else none
  | [a, b] => if a.isDigit ∧ b.isDigit then some (digitVal a * 10 + digitVal b) else none
  | _ => none

/-- Split a character list on `':'` (the field separator of both
`strptime` patterns used by `_to_time`). -/
def splitColon : List Char → List (List Char)
  | [] => [[]]
  | c :: rest =>
      if c = ':' then [] :: splitColon rest
      else
        match splitColon rest with
        | [] => [[c]]
        | g :: gs => (c :: g) :: gs

/-- Model of `datetime.strptime(x, "%H:%M:%S")` and `"%H:%M"` as used by
`compute_item_status._to_time` (app.py lines 340-348): seconds after
midnight on success, `none` on any parse failure. -/
def toTimeOpt (x : String) : Option Nat :=
  let t := stripS x
  match splitColon t.data with
  | [h, m, s] =>
      match fieldVal h, fieldVal m, fieldVal s with
      | some hh, some mm, some ss =>
          if hh ≤ 23 ∧ mm ≤ 59 ∧ ss ≤ 59 then some (hh * 3600 + mm * 60 + ss) else none
      | _, _, _ => none
  | [h, m] =>
      match fieldVal h, fieldVal m with
      | some hh, some mm =>
          if hh ≤ 23 ∧ mm ≤ 59 then some (hh * 3600 + mm * 60) else none
      | _, _ => none
  | _ => none

/-- Embedding of `compute_item_status._to_time`: unparsable values fall back to
`dtime(0, 0)`, i.e. second 0 of the day, and the row is kept. -/
def toTime (x : String) : Nat :=
  (toTimeOpt x).getD 0

/-- Embedding of `compute_item_status._is_overdue` (app.py lines 365-376), with the
row's `status_atual` and `deadline_hhmm` fields and the dates/instant
passed explicitly: not `PENDENTE` is never overdue; an absent or
unparsable deadline is never overdue; a past target day is always
overdue; a future one never; on the target day itself the source
returns `now_time >= t`. -/
def isOverdue (statusAtual deadline : String) (targetD nowD : Int) (nowT : Nat) : Bool :=
  if statusAtual ≠ "PENDENTE" then false
  else
    match parseHHMM deadline with
    | none => false
    | some t =>
        if targetD < nowD then true
        else if targetD > nowD then false
        else nowT ≥ t

/-- Characters admitted inside a spreadsheet id by the pattern
`[a-zA-Z0-9-_]` of `normalize_sheet_id` (sheets_client.py line 19). -/
def idChar (c : Char) : Bool :=
  ('a' ≤ c ∧ c ≤ 'z') || ('A' ≤ c ∧ c ≤ 'Z') || ('0' ≤ c ∧ c ≤ '9') || c = '-' || c = '_'

/-- Match a literal character list at the head of `l`, returning the
rest on success. -/
def dropLit : List Char → List Char → Option (List Char)
  | [], l => some l
  | _ :: _, [] => none
  | p :: ps, c :: cs => if c = p then dropLit ps cs else none

/-- The literal part of the pattern `/spreadsheets/d/([a-zA-Z0-9-_]+)`. -/
def sheetLit : List Char := "/spreadsheets/d/".data

/-- Attempt the regex `/spreadsheets/d/([a-zA-Z0-9-_]+)` anchored at the
head of `l`; the group is the maximal run of id characters. -/
def sheetMatchAt (l : List Char) : Option (List Char) :=
  match dropLit sheetLit l with
  | none => none
  | some rest =>
      let g := rest.takeWhile idChar
      if g = [] then none else some g

/-- Model of `re.search` of that pattern: first position, scanning left to
right, where it matches. -/
def findSheetId : List Char → Option (List Char)
  | [] => none
  | c :: cs =>
      match sheetMatchAt (c :: cs) with
      | some g => some g
      | none => findSheetId cs

/-- Embedding of `normalize_sheet_id` of sheets_client.py (lines 17-22): strip, and
if the URL pattern occurs somewhere return its captured group, else the
stripped input. -/
def normalize_sheet_id (value : String) : String :=
  let v := stripS value
  match findSheetId v.data with
  | some g => String.mk g
  | none => v

/-!
Sorting.  `pandas.DataFrame.sort_values` followed by
`groupby(...).tail(1)` is the reconciliation step of
`compute_item_status`.  `sort_values(["_t"])` uses pandas' default
`kind='quicksort'`, which is **not** stable, so the program guarantees
only that its output is some reordering of the input that is ascending
in the key — the relative order of rows with equal keys is
unspecified.  `SortValuesResult` captures exactly that set of
admissible outputs; tie-order-sensitive properties are stated over all
of them.  `sortKey` is one deterministic admissible implementation (a
stable insertion sort), used to make the rest of the pipeline an
executable function; the facts proved about the pipeline downstream of
`sortKey` do not depend on its tie order.
-/

variable {α : Type} {κ : Type} [LinearOrder κ]

/-- Insert `x` into `l` before the first element of strictly greater
key, hence after every element of equal key. -/
def insKey (key : α → κ) (x : α) : List α → List α
  | [] => [x]
  | y :: ys => if key x < key y then x :: y :: ys else y :: insKey key x ys

/-- One admissible implementation of `sort_values`: an ascending
insertion sort processing the input in arrival order.  This particular
implementation is stable, which the program does not guarantee; see
`SortValuesResult` for the program's actual (tie-order-unspecified)
contract. -/
def sortKey (key : α → κ) (l : List α) : List α :=
  l.foldl (fun acc r => insKey key r acc) []

/-- Ascending by `key`. -/
def SortedK (key : α → κ) (l : List α) : Prop :=
  l.Pairwise (fun a b => key a ≤ key b)

/-- The admissible outputs of `sort_values` (app.py line 351) on input
`l`: any reordering of `l` that is ascending in the key.  pandas'
default `kind='quicksort'` is not stable, so which of these the
program produces — in particular the relative order of equal keys — is
unspecified. -/
def SortValuesResult (key : α → κ) (l s : List α) : Prop :=
  List.Perm s l ∧ SortedK key s

/-- Refinement definition following the spec's words for the tie rule:
the record with the maximum key; on ties the later-occurring record in
the input sequence wins.  (The program itself does not guarantee the
tie half of this: see `SortValuesResult`.) -/
def lastMaxKey (key : α → κ) : List α → Option α
  | [] => none
  | x :: xs =>
      match lastMaxKey key xs with
      | none => some x
      | some b => if key b < key x then some x else some b

/-!
Data model.  A spreadsheet row after `_df_from_ws` is an association
list from normalized column names to string cells; a whole tab carries
its column list.  A missing cell reads as `""`, like the column padding
in `load_logs_for_date` and `ensure_columns`.
-/

/-- One raw spreadsheet row: (column name, cell) pairs. -/
abbrev Row := List (String × String)

/-- Cell lookup; absent columns read as `""`. -/
def cell (r : Row) (c : String) : String :=
  (((r.find? (fun kv => kv.fst = c)).map (fun kv => kv.snd)).getD "")

/-- A tab: its (normalized) column names and its rows. -/
structure RawTable where
  cols : List String
  rows : List Row
deriving DecidableEq

/-- One normalized log record as produced by `load_logs_for_date`. -/
structure LogRow where
  data : String
  hora : String
  user_login : String
  user_nome : String
  area_id : String
  turno : String
  item_id : String
  texto : String
  status : String
  obs : String
deriving DecidableEq

/-- Candidate names for the log date column (app.py line 243). -/
def dateCands : List String := ["data", "date", "dia"]

/-- Candidate names for the log timestamp column (app.py line 244). -/
def tsCands : List String := ["timestamp", "ts", "datetime"]

/-- Model of `pd.to_datetime(...).dt.date` for a single cell: the ISO
calendar date `YYYY-MM-DD` when the cell starts with one (optionally
followed by a `T` or blank and a time part), `none` when the cell does
not parse as an instant.  Simplified model of pandas datetime parsing
for the ISO timestamps the write path produces. -/
def pdDateOf (s : String) : Option String :=
  match (stripS s).data with
  | y1 :: y2 :: y3 :: y4 :: '-' :: m1 :: m2 :: '-' :: d1 :: d2 :: rest =>
      if (y1.isDigit ∧ y2.isDigit ∧ y3.isDigit ∧ y4.isDigit ∧ m1.isDigit ∧ m2.isDigit ∧
          d1.isDigit ∧ d2.isDigit) ∧
          1 ≤ digitVal m1 * 10 + digitVal m2 ∧ digitVal m1 * 10 + digitVal m2 ≤ 12 ∧
          1 ≤ digitVal d1 * 10 + digitVal d2 ∧ digitVal d1 * 10 + digitVal d2 ≤ 31 ∧
          (rest = [] ∨ rest.head? = some 'T' ∨ rest.head? = some ' ') then
        some (String.mk [y1, y2, y3, y4, '-', m1, m2, '-', d1, d2])
      else none
  | _ => none

/-- The `data` string column derived from a timestamp cell:
`parsed.dt.date.astype(str)` yields the ISO date, or the string
`"NaT"` for an unparsable timestamp. -/
def dateStrOfTs (s : String) : String :=
  match pdDateOf s with
  | some d => d
  | none => "NaT"

/-- Build one `LogRow` from a raw row given the value of its `data`
column, applying the normalizations of app.py lines 263-270: pad
missing columns with `""`, strip+uppercase+replace the status, strip
the `hora`. -/
def mkLogRow (dval : String) (r : Row) : LogRow :=
  { data := dval
  , hora := stripS (cell r "hora")
  , user_login := cell r "user_login"
  , user_nome := cell r "user_nome"
  , area_id := cell r "area_id"
  , turno := cell r "turno"
  , item_id := cell r "item_id"
  , texto := cell r "texto"
  , status := normalizeStatus (cell r "status")
  , obs := cell r "obs" }

/-- Embedding of `load_logs_for_date` (app.py lines 231-272) without the I/O: pick
a date column (first of `data`/`date`/`dia` in column order) and keep
only rows whose stripped value equals the target ISO date; otherwise
derive the date from the first timestamp column and filter on that;
otherwise keep everything with an empty `data`.  Then normalize the
principal columns. -/
def loadLogsForDate (t : RawTable) (targetIso : String) : List LogRow :=
  match (t.cols.filter (fun c => c ∈ dateCands)).head? with
  | some dc =>
      (t.rows.filter (fun r => stripS (cell r dc) = targetIso)).map
        (fun r => mkLogRow (stripS (cell r dc)) r)
  | none =>
      match (t.cols.filter (fun c => c ∈ tsCands)).head? with
      | some tc =>
          (t.rows.filter (fun r => dateStrOfTs (cell r tc) = targetIso)).map
            (fun r => mkLogRow (dateStrOfTs (cell r tc)) r)
      | none => t.rows.map (fun r => mkLogRow "" r)

/-!
Reconciliation (`compute_item_status`, app.py lines 332-358): filter
the day's log rows by area and shift, order chronologically by the
parsed `hora`, and keep the last record per `item_id`
(`groupby("item_id").tail(1)` into the `last_map_*` dictionaries).
-/

/-- The sort key used by `sort_values(["_t"])`. -/
def horaKey (r : LogRow) : Nat := toTime r.hora

/-- The `subset` of logs for one (area, shift), app.py lines 333-336. -/
def logSubset (logs : List LogRow) (area turno : String) : List LogRow :=
  logs.filter (fun r => stripS r.area_id = area ∧ stripS r.turno = turno)

/-- The record that `groupby("item_id").tail(1)` keeps for `item` out
of a sorted frame `s`: the last row of that item's (order-preserved)
subsequence of `s`. -/
def lastForSort (s : List LogRow) (item : String) : Option LogRow :=
  (s.filter (fun r => r.item_id = item)).getLast?

/-- The record that `groupby("item_id").tail(1)` selects for `item`
after the chronological sort, instantiated with the deterministic
`sortKey` implementation of the sort. -/
def lastFor (logs : List LogRow) (area turno item : String) : Option LogRow :=
  ((sortKey horaKey (logSubset logs area turno)).filter
    (fun r => r.item_id = item)).getLast?

/-- Embedding of `last_map_status.get(k, STATUS_PENDENTE)`: the reconciled current
status of one item. -/
def statusAtualOf (logs : List LogRow) (area turno item : String) : String :=
  match lastFor logs area turno item with
  | some r => r.status
  | none => "PENDENTE"

/-- Embedding of `_safe_str(last_map_obs.get(k, ""))`: the reconciled note. -/
def obsAtualOf (logs : List LogRow) (area turno item : String) : String :=
  match lastFor logs area turno item with
  | some r => stripS r.obs
  | none => ""

/-- All rows of one (day, area, shift, item) entity key, as filtered by
the code before selecting the latest record. -/
def keyGroup (logs : List LogRow) (area turno item : String) : List LogRow :=
  (logSubset logs area turno).filter (fun r => r.item_id = item)

/-!
Embedding of `compute_item_status` (app.py lines 274-379): normalize the catalog
(ITENS) columns, fail when the key columns are missing, default the
optional ones, restrict to one (area, shift), order by
(`ordem`, `item_id`), and attach the reconciled status, note and
overdue flag to every catalog item.
-/

/-- The column renames of app.py lines 287-295. -/
def renameItensCol (c : String) : String :=
  if c = "area" then "area_id"
  else if c = "turno_nome" then "turno"
  else if c = "texto" then "item_texto"
  else c

/-- Rename the keys of one row accordingly. -/
def renameItensRow (r : Row) : Row :=
  r.map (fun kv => (renameItensCol kv.fst, kv.snd))

/-- Fallback names tried for `item_texto` (app.py line 302). -/
def texCands : List String := ["texto_item", "item", "descricao", "descrição", "item_texto"]

/-- app.py lines 300-306: if `item_texto` is missing, rename the first
candidate column to it, else copy `item_id` into a new column. -/
def fixItemTexto (cols : List String) (rows : List Row) : List String × List Row :=
  if "item_texto" ∈ cols then (cols, rows)
  else
    match (cols.filter (fun c => c ∈ texCands)).head? with
    | some c =>
        (cols.map (fun x => if x = c then "item_texto" else x),
         rows.map (fun r => r.map (fun kv => if kv.fst = c then ("item_texto", kv.snd) else kv)))
    | none =>
        (cols ++ ["item_texto"], rows.map (fun r => r ++ [("item_texto", cell r "item_id")]))

/-- Model of `df[c] = v` for a missing column `c` (app.py lines 308-319). -/
def addDefaultCol (c v : String) : List String × List Row → List String × List Row
  | (cols, rows) =>
      if c ∈ cols then (cols, rows)
      else (cols ++ [c], rows.map (fun r => r ++ [(c, v)]))

/-- Model of `pd.to_numeric(df["ordem"], errors="coerce").fillna(9999).astype(int)`
(app.py line 325), modelled for nonnegative integer literals; anything
else coerces to 9999. -/
def ordemNum (r : Row) : Int :=
  match (stripS (cell r "ordem")).toNat? with
  | some n => (n : Int)
  | none => 9999

/-- The two-column sort key of `sort_values(["ordem_num", "item_id"])`. -/
def itemSortKey (r : Row) : Int ×ₗ String :=
  toLex (ordemNum r, cell r "item_id")

/-- One output row of `compute_item_status`, holding the columns the
rest of the program reads. -/
structure ItemOut where
  area_id : String
  turno : String
  item_id : String
  item_texto : String
  ordem : String
  deadline_hhmm : String
  tipo_resposta : String
  minv : String
  obs_atual : String
  status_atual : String
  atrasado : Bool
deriving DecidableEq

/-- Attach the reconciled status and the overdue flag to one catalog
row (app.py lines 357-358 and 365-378). -/
def mkItemOut (logs : List LogRow) (targetD nowD : Int) (nowT : Nat)
    (area turno : String) (r : Row) : ItemOut :=
  let item := cell r "item_id"
  let st := statusAtualOf logs area turno item
  { area_id := cell r "area_id"
  , turno := cell r "turno"
  , item_id := item
  , item_texto := cell r "item_texto"
  , ordem := cell r "ordem"
  , deadline_hhmm := cell r "deadline_hhmm"
  , tipo_resposta := cell r "tipo_resposta"
  , minv := cell r "min"
  , obs_atual := obsAtualOf logs area turno item
  , status_atual := st
  , atrasado := isOverdue st (stripS (cell r "deadline_hhmm")) targetD nowD nowT }

/-- Embedding of `compute_item_status` (app.py lines 274-379).  The `RuntimeError`
raised when the catalog lacks the key columns is modelled as
`Except.error` with the source's message; every other input yields
`Except.ok`. -/
def computeItemStatus (itens : RawTable) (logs : List LogRow) (targetD nowD : Int)
    (nowT : Nat) (area turno : String) : Except String (List ItemOut) :=
  let cols1 := itens.cols.map renameItensCol
  let rows1 := itens.rows.map renameItensRow
  if "area_id" ∈ cols1 ∧ "turno" ∈ cols1 ∧ "item_id" ∈ cols1 then
    let ct2 := fixItemTexto cols1 rows1
    let ct3 := addDefaultCol "deadline_hhmm" ""
      (addDefaultCol "min" ""
        (addDefaultCol "tipo_resposta" "OK, NAO OK"
          (addDefaultCol "ordem" "9999" ct2)))
    let rowsF := ct3.snd.filter
      (fun r => stripS (cell r "area_id") = area ∧ stripS (cell r "turno") = turno)
    let rowsS := sortKey itemSortKey rowsF
    Except.ok (rowsS.map (mkItemOut logs targetD nowD nowT area turno))
  else
    Except.error "A aba ITENS precisa ter colunas: area_id, turno, item_id (além de item_texto)."

/-!
The per-(area, shift) counts of `build_dashboard` (app.py lines
491-496): occurrences of each canonical status among `status_atual`,
rows flagged `atrasado`, and the row total.  No completion percentage
is computed anywhere in the source.
-/

def okCount (rows : List ItemOut) : Nat :=
  (rows.filter (fun r => r.status_atual = "OK")).length

def naoOkCount (rows : List ItemOut) : Nat :=
  (rows.filter (fun r => r.status_atual = "NAO_OK")).length

def pendCount (rows : List ItemOut) : Nat :=
  (rows.filter (fun r => r.status_atual = "PENDENTE")).length

def atrCount (rows : List ItemOut) : Nat :=
  (rows.filter (fun r => r.atrasado)).length

/-!
Concrete fixtures used by counterexamples and witnesses.
-/

/-- A catalog tab with one item for area `A`, shift `T`, deadline
`08:00`. -/
def c3Itens : RawTable :=
  ⟨["area_id", "turno", "item_id", "deadline_hhmm"],
   [[("area_id", "A"), ("turno", "T"), ("item_id", "I1"), ("deadline_hhmm", "08:00")]]⟩

/-- The classifier output for `c3Itens` with no events on a past day:
pending and overdue at once. -/
def c3Row : ItemOut :=
  ⟨"A", "T", "I1", "I1", "9999", "08:00", "OK, NAO OK", "", "", "PENDENTE", true⟩

/-- A log row whose `hora` does not parse as a time. -/
def c9LogRow : LogRow := ⟨"2024-01-01", "xx99", "", "", "A", "T", "I1", "", "OK", ""⟩

/-- A log tab holding only a timestamp column, with one parseable and
one unparsable timestamp. -/
def c9Tab : RawTable :=
  ⟨["timestamp", "status"],
   [[("timestamp", "2024-01-01T09:00:00"), ("status", "ok")],
    [("timestamp", "bogus"), ("status", "ok")]]⟩

/-- A log tab with a `data` column: one row for 2024-01-01 and one for
2024-01-02. -/
def c5Tab1 : RawTable :=
  ⟨["data", "hora", "area_id", "turno", "item_id", "status"],
   [[("data", "2024-01-01"), ("hora", "09:00:00"), ("area_id", "A"), ("turno", "T"),
     ("item_id", "I1"), ("status", "ok")],
    [("data", "2024-01-02"), ("hora", "10:00:00"), ("area_id", "A"), ("turno", "T"),
     ("item_id", "I1"), ("status", "nao ok")]]⟩

/-- Same day-2024-01-01 content as `c5Tab1` but with the other-day
event changed and one more other-day event added. -/
def c5Tab2 : RawTable :=
  ⟨["data", "hora", "area_id", "turno", "item_id", "status"],
   [[("data", "2024-01-01"), ("hora", "09:00:00"), ("area_id", "A"), ("turno", "T"),
     ("item_id", "I1"), ("status", "ok")],
    [("data", "2024-01-02"), ("hora", "11:00:00"), ("area_id", "A"), ("turno", "T"),
     ("item_id", "I1"), ("status", "ok")],
    [("data", "2023-12-31"), ("hora", "08:00:00"), ("area_id", "A"), ("turno", "T"),
     ("item_id", "I1"), ("status", "nao ok")]]⟩

/-- A catalog tab whose area column arrives under the legacy name
`area` and which lacks every optional column. -/
def c7Itens : RawTable :=
  ⟨["area", "turno", "item_id"],
   [[("area", "A"), ("turno", "T"), ("item_id", "I1")]]⟩

/-- A catalog tab missing the `item_id` key column. -/
def c7Bad : RawTable := ⟨["area_id", "turno"], []⟩

/-- Refinement definition following the spec's words for the
Reconciler: the current status of an entity key is the `raw_status` of
the record with the maximum timestamp, ties broken in favour of the
record occurring later in the input sequence (which is exactly what
`lastMaxKey` selects), and `PENDENTE` when the group is empty. -/
def lwwStatus (g : List LogRow) : String :=
  match lastMaxKey horaKey g with
  | some r => r.status
  | none => "PENDENTE"

/-- Event of the spec's example scenario: `NOT_OK` at `10:00:05`. -/
def exNotOk : LogRow := ⟨"2024-05-01", "10:00:05", "", "", "A", "T", "I1", "", "NAO_OK", ""⟩

/-- Event of the spec's example scenario: `OK` at `10:00:00`. -/
def exOk : LogRow := ⟨"2024-05-01", "10:00:00", "", "", "A", "T", "I1", "", "OK", ""⟩

/-- First-arriving event of an exact-timestamp tie: `OK` at `10:00:00`. -/
def tieOk : LogRow := ⟨"2024-05-01", "10:00:00", "", "", "A", "T", "I1", "", "OK", ""⟩

/-- Later-arriving event of the same tie: `NAO_OK`, also at `10:00:00`. -/
def tieNot : LogRow := ⟨"2024-05-01", "10:00:00", "", "", "A", "T", "I1", "", "NAO_OK", ""⟩

/-- Modelled from the spec's words for C2: on the target day the item
is overdue iff `now` is strictly later than the deadline time of day
plus `tolerance_minutes`. -/
def claimOverdueToday (deadlineT toleranceMin nowT : Nat) : Bool :=
  deadlineT + toleranceMin * 60 < nowT

/-!
### Claims
-/

theorem mem_insKey {key : α → κ} {x a : α} {l : List α} :
    a ∈ insKey key x l ↔ a = x ∨ a ∈ l := by
  induction l with
  | nil => simp [insKey]
  | cons y ys ih =>
      simp only [insKey]
      split
      · simp
      · simp [ih]; tauto

theorem sorted_insKey {key : α → κ} {x : α} {l : List α} (h : SortedK key l) :
    SortedK key (insKey key x l) := by
  induction l with
  | nil => simp [insKey, SortedK]
  | cons y ys ih =>
      simp only [insKey]
      rcases h with - | ⟨hy, hys⟩
      split
      next hlt =>
        refine List.Pairwise.cons ?_ (List.Pairwise.cons hy hys)
        intro b hb
        rcases List.mem_cons.mp hb with rfl | hb
        · exact le_of_lt hlt
        · exact le_trans (le_of_lt hlt) (hy b hb)
      next hge =>
        refine List.Pairwise.cons ?_ (ih hys)
        intro b hb
        rcases mem_insKey.mp hb with rfl | hb
        · exact le_of_not_lt hge
        · exact hy b hb

theorem sortKey_append_singleton (key : α → κ) (l : List α) (r : α) :
    sortKey key (l ++ [r]) = insKey key r (sortKey key l) := by
  simp [sortKey, List.foldl_append]

theorem sorted_sortKey (key : α → κ) (l : List α) : SortedK key (sortKey key l) := by
  induction l using List.reverseRecOn with
  | nil => simp [sortKey, SortedK]
  | append_singleton l r ih =>
      rw [sortKey_append_singleton]
      exact sorted_insKey ih

theorem insKey_of_forall_lt {key : α → κ} {x : α} {l : List α}
    (h : ∀ z ∈ l, key x < key z) : insKey key x l = x :: l := by
  cases l with
  | nil => rfl
  | cons z zs => simp [insKey, h z (by simp)]

theorem filter_insKey {key : α → κ} {x : α} {l : List α} (p : α → Bool)
    (h : SortedK key l) :
    (insKey key x l).filter p = if p x then insKey key x (l.filter p) else l.filter p := by
  induction l with
  | nil =>
      simp only [insKey, List.filter]
      split <;> simp_all [insKey]
  | cons y ys ih =>
      rcases h with - | ⟨hy, hys⟩
      simp only [insKey]
      split
      next hlt =>
        by_cases hpx : p x
        · by_cases hpy : p y
          · simp [List.filter_cons, hpx, hpy, insKey, hlt]
          · have hcons : insKey key x (List.filter p ys) = x :: List.filter p ys := by
              refine insKey_of_forall_lt ?_
              intro z hz
              exact lt_of_lt_of_le hlt (hy z (List.mem_of_mem_filter hz))
            simp [List.filter_cons, hpx, hpy, hcons]
        · simp [List.filter_cons, hpx]
      next hge =>
        by_cases hpx : p x
        · by_cases hpy : p y
          · simp [List.filter_cons, hpy, hpx, ih hys, insKey, hge]
          · simp [List.filter_cons, hpy, hpx, ih hys]
        · by_cases hpy : p y
          · simp [List.filter_cons, hpy, hpx, ih hys]
          · simp [List.filter_cons, hpy, hpx, ih hys]

theorem filter_sortKey (key : α → κ) (p : α → Bool) (l : List α) :
    (sortKey key l).filter p = sortKey key (l.filter p) := by
  induction l using List.reverseRecOn with
  | nil => simp [sortKey]
  | append_singleton l r ih =>
      rw [sortKey_append_singleton, filter_insKey p (sorted_sortKey key l), ih,
        List.filter_append]
      by_cases hpr : p r
      · simp [hpr, sortKey_append_singleton]
      · simp [hpr, List.filter]

theorem lastMaxKey_eq_none {key : α → κ} {l : List α} :
    lastMaxKey key l = none ↔ l = [] := by
  cases l with
  | nil => simp [lastMaxKey]
  | cons x xs =>
      simp only [lastMaxKey]
      constructor
      · intro h
        cases hx : lastMaxKey key xs <;> rw [hx] at h <;> simp at h
        split at h <;> simp at h
      · intro h; cases h

theorem lastMaxKey_append_singleton (key : α → κ) (l : List α) (r : α) :
    lastMaxKey key (l ++ [r]) =
      some (match lastMaxKey key l with
            | none => r
            | some b => if key b ≤ key r then r else b) := by
  induction l with
  | nil => simp [lastMaxKey]
  | cons x xs ih =>
      rw [List.cons_append]
      simp only [lastMaxKey, ih]
      cases hx : lastMaxKey key xs with
      | none =>
          simp only
          by_cases h2 : key x ≤ key r
          · have h1 : ¬ key r < key x := not_lt.mpr h2
            simp [h1, h2]
          · have h1 : key r < key x := not_le.mp h2
            simp [h1, h2]
      | some b =>
          simp only
          by_cases hbr : key b ≤ key r
          · by_cases hbx : key b < key x
            · by_cases hxr : key x ≤ key r
              · simp [hbr, hbx, hxr, not_lt.mpr hxr]
              · simp [hbr, hbx, hxr, not_le.mp hxr]
            · have hrx : ¬ key r < key x := not_lt.mpr (le_trans (le_of_not_lt hbx) hbr)
              simp [hbr, hbx, hrx]
          · have hrb : key r < key b := not_le.mp hbr
            by_cases hbx : key b < key x
            · have hxr : ¬ key x ≤ key r := not_le.mpr (lt_trans hrb hbx)
              simp [hbr, hbx, hxr]
            · simp [hbr, hbx]

theorem head_key_le_getLast {key : α → κ} {y b : α} {ys : List α}
    (h : SortedK key (y :: ys)) (hb : (y :: ys).getLast? = some b) :
    key y ≤ key b := by
  have hmem : b ∈ y :: ys := by
    have := List.getLast?_eq_getLast (y :: ys) (by simp)
    rw [this] at hb
    have hb2 : List.getLast (y :: ys) (by simp) = b := by injection hb
    rw [← hb2]
    exact List.getLast_mem _
  rcases List.mem_cons.mp hmem with rfl | hmem
  · exact le_refl _
  · rcases h with - | ⟨hy, -⟩
    exact hy b hmem

theorem insKey_ne_nil (key : α → κ) (x : α) (l : List α) : insKey key x l ≠ [] := by
  cases l with
  | nil => simp [insKey]
  | cons y ys =>
      simp only [insKey]
      split <;> simp

theorem getLast?_insKey {key : α → κ} {x : α} {l : List α} (h : SortedK key l) :
    (insKey key x l).getLast? =
      some (match l.getLast? with
            | none => x
            | some b => if key b ≤ key x then x else b) := by
  induction l with
  | nil => simp [insKey]
  | cons y ys ih =>
      simp only [insKey]
      split
      next hlt =>
        have hl : (y :: ys).getLast? = some (List.getLast (y :: ys) (by simp)) :=
          List.getLast?_eq_getLast _ _
        rw [hl]
        have hyb : key y ≤ key (List.getLast (y :: ys) (by simp)) :=
          head_key_le_getLast h hl
        have : ¬ key (List.getLast (y :: ys) (by simp)) ≤ key x :=
          not_le.mpr (lt_of_lt_of_le hlt hyb)
        simp only [this, if_false]
        rw [List.getLast?_cons_cons, hl]
      next hge =>
        rcases h with - | ⟨hy, hys⟩
        have hcons : (y :: insKey key x ys).getLast? = (insKey key x ys).getLast? := by
          cases hk : insKey key x ys with
          | nil => exact absurd hk (insKey_ne_nil key x ys)
          | cons z zs => rw [List.getLast?_cons_cons]
        rw [hcons, ih hys]
        cases ys with
        | nil => simp [le_of_not_lt hge]
        | cons z zs =>
            have : (y :: z :: zs).getLast? = (z :: zs).getLast? := List.getLast?_cons_cons
            rw [this]

theorem getLast?_sortKey (key : α → κ) (l : List α) :
    (sortKey key l).getLast? = lastMaxKey key l := by
  induction l using List.reverseRecOn with
  | nil => simp [sortKey, lastMaxKey]
  | append_singleton l r ih =>
      rw [sortKey_append_singleton, getLast?_insKey (sorted_sortKey key l), ih,
        lastMaxKey_append_singleton]

theorem lastMaxKey_mem {key : α → κ} {l : List α} {r : α}
    (h : lastMaxKey key l = some r) : r ∈ l := by
  induction l with
  | nil => simp [lastMaxKey] at h
  | cons x xs ih =>
      simp only [lastMaxKey] at h
      cases hx : lastMaxKey key xs with
      | none => rw [hx] at h; simp at h; simp [h]
      | some b =>
          rw [hx] at h
          simp only at h
          split at h
          · injection h with h; simp [h]
          · injection h with h; subst h; exact List.mem_cons_of_mem _ (ih hx)

theorem lastMaxKey_le {key : α → κ} {l : List α} :
    ∀ {r : α}, lastMaxKey key l = some r → ∀ x ∈ l, key x ≤ key r := by
  induction l with
  | nil => intro r h; simp [lastMaxKey] at h
  | cons y ys ih =>
      intro r h x hx
      simp only [lastMaxKey] at h
      cases hy : lastMaxKey key ys with
      | none =>
          rw [hy] at h
          have hnil : ys = [] := lastMaxKey_eq_none.mp hy
          subst hnil
          simp only [Option.some.injEq] at h
          rcases List.mem_cons.mp hx with rfl | hx
          · exact le_of_eq (congrArg key h)
          · simp at hx
      | some b =>
          rw [hy] at h
          simp only at h
          rcases List.mem_cons.mp hx with rfl | hx
          · split at h
            next => injection h with h; subst h; exact le_refl _
            next hge => injection h with h; subst h; exact le_of_not_lt hge
          · have hxb : key x ≤ key b := ih hy x hx
            split at h
            next hlt => injection h with h; subst h; exact le_trans hxb (le_of_lt hlt)
            next => injection h with h; subst h; exact hxb

theorem lastMaxKey_perm {key : α → κ} {l₁ l₂ : List α}
    (hp : List.Perm l₁ l₂)
    (hd : l₁.Pairwise (fun a b => key a ≠ key b)) :
    lastMaxKey key l₁ = lastMaxKey key l₂ := by
  cases h₁ : lastMaxKey key l₁ with
  | none =>
      have : l₁ = [] := lastMaxKey_eq_none.mp h₁
      subst this
      have : l₂ = [] := hp.nil_eq.symm
      subst this
      rfl
  | some r₁ =>
      cases h₂ : lastMaxKey key l₂ with
      | none =>
          have : l₂ = [] := lastMaxKey_eq_none.mp h₂
          subst this
          have : l₁ = [] := hp.eq_nil
          subst this
          simp [lastMaxKey] at h₁
      | some r₂ =>
          have hm₁ : r₁ ∈ l₁ := lastMaxKey_mem h₁
          have hm₂ : r₂ ∈ l₁ := hp.mem_iff.mpr (lastMaxKey_mem h₂)
          have hle₁ : key r₂ ≤ key r₁ := lastMaxKey_le h₁ r₂ hm₂
          have hle₂ : key r₁ ≤ key r₂ :=
            lastMaxKey_le h₂ r₁ (hp.mem_iff.mp hm₁)
          by_cases heq : r₁ = r₂
          · rw [heq]
          · exfalso
            have hsymm : Symmetric (fun a b : α => key a ≠ key b) := by
              intro a b h; exact h.symm
            exact hd.forall hsymm hm₁ hm₂ heq (le_antisymm hle₂ hle₁)

theorem sorted_le_getLast {key : α → κ} {m : List α} {r : α}
    (hs : SortedK key m) (hr : m.getLast? = some r) : ∀ x ∈ m, key x ≤ key r := by
  induction m with
  | nil => intro x hx; simp at hx
  | cons y ys ih =>
      intro x hx
      rcases List.mem_cons.mp hx with rfl | hx
      · exact head_key_le_getLast hs hr
      · cases ys with
        | nil => simp at hx
        | cons z zs =>
            rw [List.getLast?_cons_cons] at hr
            rcases hs with - | ⟨-, hys⟩
            exact ih hys hr x hx

theorem insKey_perm (key : α → κ) (x : α) (l : List α) :
    List.Perm (insKey key x l) (x :: l) := by
  induction l with
  | nil => exact List.Perm.refl _
  | cons y ys ih =>
      simp only [insKey]
      split
      · exact List.Perm.refl _
      · exact (List.Perm.cons y ih).trans (List.Perm.swap x y ys)

theorem sortKey_perm (key : α → κ) (l : List α) :
    List.Perm (sortKey key l) l := by
  induction l using List.reverseRecOn with
  | nil => exact List.Perm.refl _
  | append_singleton l r ih =>
      rw [sortKey_append_singleton]
      have h1 : List.Perm (insKey key r (sortKey key l)) (r :: sortKey key l) :=
        insKey_perm key r (sortKey key l)
      have h2 : List.Perm (r :: sortKey key l) (r :: l) := List.Perm.cons r ih
      have h3 : List.Perm (r :: l) (l ++ [r]) := (List.perm_append_singleton r l).symm
      exact (h1.trans h2).trans h3

theorem sortValuesResult_sortKey (key : α → κ) (l : List α) :
    SortValuesResult key l (sortKey key l) :=
  ⟨sortKey_perm key l, sorted_sortKey key l⟩

/-- Claim C1 counterexample: on an exact timestamp tie, the reordering
`[tieNot, tieOk]` of the arrival sequence `[tieOk, tieNot]` is an
admissible output of the program's sort (pandas default
`kind='quicksort'`, not stable, leaves the order of equal keys
unspecified), and under it `groupby(...).tail(1)` selects the
earlier-arriving record, giving status `OK`, while the claim's
later-in-input-wins rule (encoded by `lwwStatus`) mandates `NAO_OK`. -/
theorem C1_counterexample :
    horaKey tieOk = horaKey tieNot ∧
    SortValuesResult horaKey (logSubset [tieOk, tieNot] "A" "T") [tieNot, tieOk] ∧
    (lastForSort [tieNot, tieOk] "I1").map (fun r => r.status) = some "OK" ∧
    lwwStatus (keyGroup [tieOk, tieNot] "A" "T" "I1") = "NAO_OK" ∧
    ("OK" : String) ≠ "NAO_OK" :=
  ⟨rfl, ⟨by decide, by unfold SortedK; decide⟩, by decide, by decide, by decide⟩

/-- Claim C1 as amended: for every admissible result `s` of the (not
necessarily stable) chronological sort of the (day, area, shift)
subset, the record that `groupby("item_id").tail(1)` selects for an
entity key belongs to that key's group and attains the maximum
timestamp within it; an empty group selects nothing (the caller then
defaults to `PENDENTE`); and when no two records of the group share a
timestamp the selection is the unique maximum — hence independent of
the input order and of which admissible sort the library produces.
On identical timestamps the winner is unspecified. -/
theorem C1_reconcile_max_amended (logs : List LogRow) (area turno item : String)
    (s : List LogRow)
    (hs : SortValuesResult horaKey (logSubset logs area turno) s) :
    (∀ r, lastForSort s item = some r →
        r ∈ keyGroup logs area turno item ∧
        ∀ x ∈ keyGroup logs area turno item, horaKey x ≤ horaKey r) ∧
    (keyGroup logs area turno item = [] → lastForSort s item = none) ∧
    ((keyGroup logs area turno item).Pairwise (fun a b => horaKey a ≠ horaKey b) →
      lastForSort s item = lastMaxKey horaKey (keyGroup logs area turno item)) := by
  obtain ⟨hperm, hsort⟩ := hs
  have hpermf : List.Perm (s.filter (fun r => r.item_id = item))
      (keyGroup logs area turno item) := hperm.filter _
  have hsortf : SortedK horaKey (s.filter (fun r => r.item_id = item)) :=
    hsort.filter _
  refine ⟨?_, ?_, ?_⟩
  · intro r hr
    have hmem : r ∈ s.filter (fun r => r.item_id = item) :=
      List.mem_of_getLast?_eq_some hr
    refine ⟨hpermf.mem_iff.mp hmem, ?_⟩
    intro x hx
    exact sorted_le_getLast hsortf hr x (hpermf.mem_iff.mpr hx)
  · intro hempty
    have hnil : s.filter (fun r => r.item_id = item) = [] := by
      rw [hempty] at hpermf
      exact hpermf.eq_nil
    unfold lastForSort
    rw [hnil]
    rfl
  · intro hdist
    cases hg : lastMaxKey horaKey (keyGroup logs area turno item) with
    | none =>
        have hempty : keyGroup logs area turno item = [] := lastMaxKey_eq_none.mp hg
        have hnil : s.filter (fun r => r.item_id = item) = [] := by
          rw [hempty] at hpermf
          exact hpermf.eq_nil
        unfold lastForSort
        rw [hnil]
        rfl
    | some rmax =>
        have hmaxmem : rmax ∈ keyGroup logs area turno item := lastMaxKey_mem hg
        have hne : s.filter (fun r => r.item_id = item) ≠ [] := by
          intro h0
          rw [h0] at hpermf
          rw [hpermf.symm.eq_nil] at hmaxmem
          simp at hmaxmem
        obtain ⟨r, hr⟩ : ∃ r, (s.filter (fun r => r.item_id = item)).getLast? = some r := by
          cases hlast : (s.filter (fun r => r.item_id = item)).getLast? with
          | none => exact absurd (List.getLast?_eq_none_iff.mp hlast) hne
          | some r => exact ⟨r, rfl⟩
        have hrmem : r ∈ keyGroup logs area turno item :=
          hpermf.mem_iff.mp (List.mem_of_getLast?_eq_some hr)
        have h1 : horaKey r ≤ horaKey rmax := lastMaxKey_le hg r hrmem
        have h2 : horaKey rmax ≤ horaKey r :=
          sorted_le_getLast hsortf hr rmax (hpermf.mem_iff.mpr hmaxmem)
        have heq : r = rmax := by
          by_contra hne2
          have hsymm : Symmetric (fun a b : LogRow => horaKey a ≠ horaKey b) := by
            intro a b h
            exact h.symm
          exact hdist.forall hsymm hrmem hmaxmem hne2 (le_antisymm h1 h2)
        unfold lastForSort
        rw [hr, heq]

theorem C1_reconcile_max_amended_witness :
    lastForSort [exOk, exNotOk] "I1" =
      lastMaxKey horaKey (keyGroup [exOk, exNotOk] "A" "T" "I1") ∧
    lastForSort [exOk, exNotOk] "I1" = some exNotOk :=
  ⟨(C1_reconcile_max_amended [exOk, exNotOk] "A" "T" "I1" [exOk, exNotOk]
      ⟨by decide, by unfold SortedK; decide⟩).2.2 (by decide), by decide⟩

/-- Claim C2 counterexample: at exactly the deadline (`09:00:00`,
tolerance 0) the code reports overdue (`now_time >= t`), while the
claim's strict `now > deadline + tolerance` predicts not overdue. -/
theorem C2_counterexample :
    isOverdue "PENDENTE" "09:00" 5 5 (9 * 3600) = true ∧
    claimOverdueToday (9 * 3600) 0 (9 * 3600) = false := ⟨rfl, rfl⟩

/-- Claim C2 as amended: for a `PENDENTE` item with a parseable
deadline and target day equal to now's date, the code is overdue iff
`now`'s time of day is greater than **or equal to** the deadline — no
tolerance is applied (the source has no tolerance parameter), so it is
already overdue at the deadline instant itself. -/
theorem C2_overdue_today_amended (st dl : String) (targetD nowD : Int) (nowT t : Nat)
    (hst : st = "PENDENTE") (hp : parseHHMM dl = some t) (hd : targetD = nowD) :
    isOverdue st dl targetD nowD nowT = true ↔ t ≤ nowT := by
  subst hst hd
  simp [isOverdue, hp]

set_option maxRecDepth 4096 in
theorem C2_overdue_today_amended_witness :
    isOverdue "PENDENTE" "09:00" 5 5 32400 = true ∧
    isOverdue "PENDENTE" "09:00" 5 5 32399 = false := by
  refine ⟨(C2_overdue_today_amended "PENDENTE" "09:00" 5 5 32400 32400
      rfl rfl rfl).mpr (by decide), ?_⟩
  have h := C2_overdue_today_amended "PENDENTE" "09:00" 5 5 32399 32400 rfl rfl rfl
  cases hb : isOverdue "PENDENTE" "09:00" 5 5 32399
  · rfl
  · exact absurd (h.mp hb) (by decide)

/-- Claim C6: for a `PENDENTE` item whose deadline parses, a target day
strictly before now's date is unconditionally overdue and a target day
strictly after now's date is unconditionally not overdue. -/
theorem C6_past_future_day (st dl : String) (targetD nowD : Int) (nowT t : Nat)
    (hst : st = "PENDENTE") (hp : parseHHMM dl = some t) :
    (targetD < nowD → isOverdue st dl targetD nowD nowT = true) ∧
    (nowD < targetD → isOverdue st dl targetD nowD nowT = false) := by
  subst hst
  constructor
  · intro h
    simp [isOverdue, hp, h]
  · intro h
    simp [isOverdue, hp, not_lt.mpr (le_of_lt h), h]

theorem C6_past_future_day_witness :
    isOverdue "PENDENTE" "23:59" 4 5 0 = true ∧
    isOverdue "PENDENTE" "00:00" 6 5 (23 * 3600) = false :=
  ⟨(C6_past_future_day "PENDENTE" "23:59" 4 5 0 (23 * 3600 + 59 * 60) rfl rfl).1 (by decide),
   (C6_past_future_day "PENDENTE" "00:00" 6 5 (23 * 3600) 0 rfl rfl).2 (by decide)⟩

/-- Claim C8: a deadline string that is empty after stripping, or does
not match `H:MM`/`HH:MM`, or has hour ≥ 24 or minute ≥ 60, parses to
`none` and therefore is never overdue, for any status, dates and
instant — an absent deadline, never an error. -/
theorem C8_unparsable_deadline_never_overdue (s st : String) (targetD nowD : Int) (nowT : Nat)
    (habs : stripS s = "" ∨ matchHHMM (stripS s) = none ∨
      ∃ hh mm, matchHHMM (stripS s) = some (hh, mm) ∧ (24 ≤ hh ∨ 60 ≤ mm)) :
    parseHHMM s = none ∧ isOverdue st s targetD nowD nowT = false := by
  have hnone : parseHHMM s = none := by
    unfold parseHHMM
    rcases habs with h | h | ⟨hh, mm, hm, hrange⟩
    · simp [h]
    · simp only [h]
      split <;> rfl
    · simp only [hm]
      have : hh > 23 ∨ mm > 59 := by omega
      split
      · rfl
      · simp [this]
  refine ⟨hnone, ?_⟩
  unfold isOverdue
  split
  · rfl
  · simp [hnone]

theorem C8_unparsable_deadline_never_overdue_witness :
    parseHHMM "24:00" = none ∧ isOverdue "PENDENTE" "24:00" 4 5 0 = false :=
  C8_unparsable_deadline_never_overdue "24:00" "PENDENTE" 4 5 0
    (Or.inr (Or.inr ⟨24, 0, by decide, Or.inl (by decide)⟩))

/-- Claim C4 counterexample: the localized variant `"não ok"`
(diacritics, no underscore) survives normalization as `"NÃO OK"`, which
is none of the three canonical statuses — normalization is neither
total onto {OK, NAO_OK, PENDENTE} nor does it map every "not ok"
variant to `NAO_OK`. -/
theorem C4_counterexample :
    normalizeStatus "não ok" = "NÃO OK" ∧
    ("NÃO OK" ∉ (["OK", "NAO_OK", "PENDENTE"] : List String)) :=
  ⟨rfl, by decide⟩

/-- Claim C4 as amended: normalization strips, uppercases, and maps
exactly the two variants `"NÃO_OK"` and `"NAO OK"` to `"NAO_OK"`; every
other value passes through stripped and uppercased (total, no error,
but not forced to `PENDENTE`); only an item with no reconciled event
defaults to `PENDENTE`. -/
theorem C4_normalize_amended (s : String) (logs : List LogRow) (area turno item : String) :
    ((pyUpper (stripS s) = "NÃO_OK" ∨ pyUpper (stripS s) = "NAO OK") →
      normalizeStatus s = "NAO_OK") ∧
    (pyUpper (stripS s) ≠ "NÃO_OK" → pyUpper (stripS s) ≠ "NAO OK" →
      normalizeStatus s = pyUpper (stripS s)) ∧
    (lastFor logs area turno item = none →
      statusAtualOf logs area turno item = "PENDENTE") := by
  refine ⟨?_, ?_, ?_⟩
  · rintro (h | h) <;> simp [normalizeStatus, h]
  · intro h1 h2
    simp [normalizeStatus, h1, h2]
  · intro h
    simp [statusAtualOf, h]

theorem C4_normalize_amended_witness :
    normalizeStatus "não_ok" = "NAO_OK" ∧ normalizeStatus " xyz " = "XYZ" ∧
    statusAtualOf [] "A" "T" "I1" = "PENDENTE" :=
  ⟨(C4_normalize_amended "não_ok" [] "A" "T" "I1").1 (Or.inl (by decide)),
   (C4_normalize_amended " xyz " [] "A" "T" "I1").2.1 (by decide) (by decide),
   (C4_normalize_amended "" [] "A" "T" "I1").2.2 rfl⟩

/-- Claim C5: per-day noninterference.  When the log tab has a date
column, the loaded view for a target day is a function of the rows
whose (stripped) date equals that day alone: two tabs agreeing on those
rows load identically, and every downstream classification agrees,
regardless of any added, removed or changed rows for other days. -/
theorem C5_day_noninterference (t1 t2 : RawTable) (target dc : String)
    (hcols : t1.cols = t2.cols)
    (hdc : (t1.cols.filter (fun c => c ∈ dateCands)).head? = some dc)
    (hagree : t1.rows.filter (fun r => stripS (cell r dc) = target)
            = t2.rows.filter (fun r => stripS (cell r dc) = target)) :
    loadLogsForDate t1 target = loadLogsForDate t2 target ∧
    ∀ itens targetD nowD nowT area turno,
      computeItemStatus itens (loadLogsForDate t1 target) targetD nowD nowT area turno =
      computeItemStatus itens (loadLogsForDate t2 target) targetD nowD nowT area turno := by
  have hload : loadLogsForDate t1 target = loadLogsForDate t2 target := by
    unfold loadLogsForDate
    rw [← hcols, hdc]
    dsimp only
    rw [hagree]
  exact ⟨hload, fun itens targetD nowD nowT area turno => by rw [hload]⟩

theorem C5_day_noninterference_witness :
    loadLogsForDate c5Tab1 "2024-01-01" = loadLogsForDate c5Tab2 "2024-01-01" :=
  (C5_day_noninterference c5Tab1 c5Tab2 "2024-01-01" "data" rfl rfl (by decide)).1

/-- Claim C9 counterexample: a row whose `hora` does not parse as a
time is not dropped from reconciliation — `_to_time` maps it to
`00:00` and, as the sole record of its key, it still determines the
reconciled status. -/
theorem C9_counterexample :
    toTimeOpt "xx99" = none ∧ statusAtualOf [c9LogRow] "A" "T" "I1" = "OK" :=
  ⟨rfl, by decide⟩

/-- Claim C9 as amended: rows with unparsable timestamps are dropped at
load time when the day must be derived from the timestamp column
(their derived day reads `"NaT"`, which never equals an ISO target
day); but a row whose `hora` field fails to parse is kept — `_to_time`
falls back to second 0 and the row still takes part in reconciliation;
in both cases the batch is processed without failure. -/
theorem C9_unparsable_amended (t : RawTable) (tc target : String)
    (hnd : (t.cols.filter (fun c => c ∈ dateCands)).head? = none)
    (htc : (t.cols.filter (fun c => c ∈ tsCands)).head? = some tc)
    (hnat : target ≠ "NaT") :
    loadLogsForDate t target =
      (t.rows.filter (fun r => pdDateOf (cell r tc) = some target)).map
        (fun r => mkLogRow target r) ∧
    ∀ s, toTimeOpt s = none → toTime s = 0 := by
  constructor
  · unfold loadLogsForDate
    rw [hnd, htc]
    dsimp only
    have hiff : ∀ r : Row, (dateStrOfTs (cell r tc) = target) ↔
        (pdDateOf (cell r tc) = some target) := by
      intro r
      unfold dateStrOfTs
      cases h : pdDateOf (cell r tc) with
      | some d => simp
      | none =>
          simp only [Option.some.injEq]
          constructor
          · intro he
            exact absurd he.symm hnat
          · intro he
            simp at he
    have hfil : t.rows.filter (fun r => dateStrOfTs (cell r tc) = target)
        = t.rows.filter (fun r => pdDateOf (cell r tc) = some target) := by
      apply List.filter_congr
      intro r _
      exact decide_eq_decide.mpr (hiff r)
    rw [hfil]
    apply List.map_congr_left
    intro r hr
    have hq : pdDateOf (cell r tc) = some target := by
      have := List.of_mem_filter hr
      simpa using this
    simp [dateStrOfTs, hq]
  · intro s h
    simp [toTime, h]

theorem C9_unparsable_amended_witness :
    loadLogsForDate c9Tab "2024-01-01" =
      (c9Tab.rows.filter (fun r => pdDateOf (cell r "timestamp") = some "2024-01-01")).map
        (fun r => mkLogRow "2024-01-01" r) ∧
    toTime "xx99" = 0 :=
  ⟨(C9_unparsable_amended c9Tab "timestamp" "2024-01-01" rfl rfl (by decide)).1,
   (C9_unparsable_amended c9Tab "timestamp" "2024-01-01" rfl rfl (by decide)).2 "xx99" rfl⟩

/-- Claim C7 counterexample: `compute_item_status` raises
`RuntimeError` when the catalog tab lacks one of its key columns (here
`item_id`) — a data-shape problem for which the pure classifier does
throw rather than degrade. -/
theorem C7_counterexample :
    computeItemStatus c7Bad [] 0 0 0 "A" "T" =
      Except.error
        "A aba ITENS precisa ter colunas: area_id, turno, item_id (além de item_texto)." :=
  rfl

/-- Claim C7 as amended: the classifier throws only for a catalog
missing one of the key columns `area_id`/`turno`/`item_id` (after the
legacy renames); whenever they are present it returns a result for
every input, degrading all other data-shape problems — missing
optional columns, malformed `hora`/`status`/`deadline`/`ordem` values —
to defined defaults. -/
theorem C7_no_throw_amended (itens : RawTable) (logs : List LogRow)
    (targetD nowD : Int) (nowT : Nat) (area turno : String)
    (h : "area_id" ∈ itens.cols.map renameItensCol ∧
         "turno" ∈ itens.cols.map renameItensCol ∧
         "item_id" ∈ itens.cols.map renameItensCol) :
    ∃ rows, computeItemStatus itens logs targetD nowD nowT area turno = Except.ok rows := by
  unfold computeItemStatus
  rw [if_pos h]
  exact ⟨_, rfl⟩

theorem C7_no_throw_amended_witness :
    ∃ rows, computeItemStatus c7Itens [] 0 0 0 "A" "T" = Except.ok rows :=
  C7_no_throw_amended c7Itens [] 0 0 0 "A" "T" (by decide)

theorem counts_partition (rows : List ItemOut)
    (hcanon : ∀ r ∈ rows, r.status_atual = "OK" ∨ r.status_atual = "NAO_OK" ∨
      r.status_atual = "PENDENTE") :
    okCount rows + naoOkCount rows + pendCount rows = rows.length := by
  induction rows with
  | nil => rfl
  | cons r rs ih =>
      have hr := hcanon r (List.mem_cons_self r rs)
      have hrs := ih fun x hx => hcanon x (List.mem_cons_of_mem r hx)
      unfold okCount naoOkCount pendCount at hrs ⊢
      rcases hr with h | h | h
      · simp only [List.filter_cons, h]
        rw [if_pos (by decide), if_neg (by decide), if_neg (by decide)]
        simp only [List.length_cons]
        omega
      · simp only [List.filter_cons, h]
        rw [if_neg (by decide), if_pos (by decide), if_neg (by decide)]
        simp only [List.length_cons]
        omega
      · simp only [List.filter_cons, h]
        rw [if_neg (by decide), if_neg (by decide), if_pos (by decide)]
        simp only [List.length_cons]
        omega

theorem filter_length_mono {γ : Type} (p q : γ → Bool) (l : List γ)
    (h : ∀ a ∈ l, p a = true → q a = true) :
    (l.filter p).length ≤ (l.filter q).length := by
  induction l with
  | nil => simp
  | cons a as ih =>
      have ht := ih fun x hx => h x (List.mem_cons_of_mem a hx)
      by_cases hp : p a = true
      · have hq := h a (List.mem_cons_self a as) hp
        simp only [List.filter_cons, hp, hq, if_true, List.length_cons]
        omega
      · by_cases hq : q a = true
        · simp only [List.filter_cons, if_neg hp, hq, if_true, List.length_cons]
          omega
        · simp only [List.filter_cons, if_neg hp, if_neg hq]
          exact ht

theorem isOverdue_pendente {st dl : String} {targetD nowD : Int} {nowT : Nat}
    (h : isOverdue st dl targetD nowD nowT = true) : st = "PENDENTE" := by
  by_contra hne
  simp [isOverdue, hne] at h

theorem computeItemStatus_atrasado_pendente (itens : RawTable) (logs : List LogRow)
    (targetD nowD : Int) (nowT : Nat) (area turno : String) (rows : List ItemOut)
    (hok : computeItemStatus itens logs targetD nowD nowT area turno = Except.ok rows) :
    ∀ r ∈ rows, r.atrasado = true → r.status_atual = "PENDENTE" := by
  unfold computeItemStatus at hok
  dsimp only at hok
  split at hok
  · injection hok with hok
    subst hok
    intro r hr hatr
    rcases List.mem_map.mp hr with ⟨row, _, rfl⟩
    have h1 : (mkItemOut logs targetD nowD nowT area turno row).atrasado =
        isOverdue (statusAtualOf logs area turno (cell row "item_id"))
          (stripS (cell row "deadline_hhmm")) targetD nowD nowT := rfl
    have h2 : (mkItemOut logs targetD nowD nowT area turno row).status_atual =
        statusAtualOf logs area turno (cell row "item_id") := rfl
    rw [h2]
    exact isOverdue_pendente (h1 ▸ hatr)
  · exact absurd hok (by simp)

/-- Claim C3 counterexample: one pending item past its deadline is
counted once as `PENDENTE` and once as `ATRASADO`, so the four counts
sum to 2 over a single catalog item — they do not partition the items.
(`build_dashboard` also computes no completion percentage at all.) -/
theorem C3_counterexample :
    computeItemStatus c3Itens [] 0 1 0 "A" "T" = Except.ok [c3Row] ∧
    okCount [c3Row] + naoOkCount [c3Row] + pendCount [c3Row] + atrCount [c3Row] = 2 ∧
    ([c3Row] : List ItemOut).length = 1 :=
  ⟨rfl, rfl, rfl⟩

/-- Claim C3 as amended: for classifier output whose reconciled
statuses are all canonical, the three status counts partition the
items (`OK + NAO_OK + PENDENTE = N`), and the `ATRASADO` count is a
subset of the `PENDENTE` count (`ATRASADO ≤ PENDENTE`) since only
pending items are flagged overdue; overdue items are counted in both
columns, and no completion percentage is computed by the source. -/
theorem C3_counts_amended (itens : RawTable) (logs : List LogRow)
    (targetD nowD : Int) (nowT : Nat) (area turno : String) (rows : List ItemOut)
    (hok : computeItemStatus itens logs targetD nowD nowT area turno = Except.ok rows)
    (hcanon : ∀ r ∈ rows, r.status_atual = "OK" ∨ r.status_atual = "NAO_OK" ∨
      r.status_atual = "PENDENTE") :
    okCount rows + naoOkCount rows + pendCount rows = rows.length ∧
    atrCount rows ≤ pendCount rows := by
  refine ⟨counts_partition rows hcanon, ?_⟩
  unfold atrCount pendCount
  apply filter_length_mono
  intro r hr hatr
  have hp := computeItemStatus_atrasado_pendente itens logs targetD nowD nowT area turno
    rows hok r hr hatr
  simp [hp]

theorem C3_counts_amended_witness :
    okCount [c3Row] + naoOkCount [c3Row] + pendCount [c3Row] = 1 ∧
    atrCount [c3Row] ≤ pendCount [c3Row] :=
  C3_counts_amended c3Itens [] 0 1 0 "A" "T" [c3Row] rfl (by decide)

theorem dropWhile_dropWhile (p : Char → Bool) (l : List Char) :
    (l.dropWhile p).dropWhile p = l.dropWhile p := by
  induction l with
  | nil => rfl
  | cons c cs ih =>
      by_cases h : p c
      · simp [List.dropWhile_cons, h, ih]
      · simp [List.dropWhile_cons, h]

theorem head_dropWhile_false (p : Char → Bool) (l : List Char) :
    ∀ c, (l.dropWhile p).head? = some c → p c = false := by
  induction l with
  | nil => intro c h; simp at h
  | cons x xs ih =>
      intro c h
      by_cases hx : p x
      · rw [List.dropWhile_cons, if_pos hx] at h
        exact ih c h
      · rw [List.dropWhile_cons, if_neg hx] at h
        injection h with h
        subst h
        simpa using hx

theorem dropWhile_eq_self_of_head (p : Char → Bool) (l : List Char)
    (h : ∀ c, l.head? = some c → p c = false) : l.dropWhile p = l := by
  cases l with
  | nil => rfl
  | cons c cs =>
      rw [List.dropWhile_cons, if_neg]
      simp [h c rfl]

theorem getLast?_of_suffix {s l : List Char} (hs : s <:+ l) (hne : s ≠ []) :
    l.getLast? = s.getLast? := by
  rcases hs with ⟨t, rfl⟩
  rw [List.getLast?_append]
  cases h : s.getLast? with
  | none => exact absurd (List.getLast?_eq_none_iff.mp h) hne
  | some c => rfl

theorem stripChars_idem (l : List Char) : stripChars (stripChars l) = stripChars l := by
  unfold stripChars
  cases hv : (l.dropWhile isWsPy).reverse.dropWhile isWsPy with
  | nil => simp [hv]
  | cons x xs =>
      have hvne : (l.dropWhile isWsPy).reverse.dropWhile isWsPy ≠ [] := by
        rw [hv]; exact List.cons_ne_nil x xs
      rw [← hv]
      have hA : ((l.dropWhile isWsPy).reverse.dropWhile isWsPy).reverse.dropWhile isWsPy
          = ((l.dropWhile isWsPy).reverse.dropWhile isWsPy).reverse := by
        apply dropWhile_eq_self_of_head
        intro c hc
        rw [List.head?_reverse] at hc
        have hgl : (l.dropWhile isWsPy).reverse.getLast?
            = ((l.dropWhile isWsPy).reverse.dropWhile isWsPy).getLast? :=
          getLast?_of_suffix (List.dropWhile_suffix isWsPy) hvne
        rw [← hgl, List.getLast?_reverse] at hc
        exact head_dropWhile_false isWsPy l c hc
      rw [hA, List.reverse_reverse, dropWhile_dropWhile]

theorem stripS_idem (s : String) : stripS (stripS s) = stripS s := by
  unfold stripS
  exact congrArg String.mk (stripChars_idem s.data)

theorem idChar_not_ws {c : Char} (h : idChar c = true) : isWsPy c = false := by
  cases hws : isWsPy c
  · rfl
  · exfalso
    have h1 := hws
    unfold isWsPy at h1
    simp only [Bool.or_eq_true, decide_eq_true_eq, or_assoc] at h1
    rcases h1 with rfl | rfl | rfl | rfl | rfl | rfl <;> exact absurd h (by decide)

theorem idChar_ne_slash {c : Char} (h : idChar c = true) : c ≠ '/' := by
  intro heq
  subst heq
  exact absurd h (by decide)

theorem stripChars_of_idChars {l : List Char} (h : ∀ c ∈ l, idChar c = true) :
    stripChars l = l := by
  unfold stripChars
  have h1 : l.dropWhile isWsPy = l := by
    apply dropWhile_eq_self_of_head
    intro c hc
    cases l with
    | nil => simp at hc
    | cons x xs =>
        simp only [List.head?_cons, Option.some.injEq] at hc
        subst hc
        exact idChar_not_ws (h _ (List.mem_cons_self _ xs))
  rw [h1]
  have h2 : l.reverse.dropWhile isWsPy = l.reverse := by
    apply dropWhile_eq_self_of_head
    intro c hc
    rw [List.head?_reverse] at hc
    exact idChar_not_ws (h c (List.mem_of_getLast?_eq_some hc))
  rw [h2, List.reverse_reverse]

theorem findSheetId_chars {l g : List Char} (h : findSheetId l = some g) :
    ∀ c ∈ g, idChar c = true := by
  induction l with
  | nil => simp [findSheetId] at h
  | cons c cs ih =>
      unfold findSheetId at h
      cases hm : sheetMatchAt (c :: cs) with
      | some g2 =>
          rw [hm] at h
          injection h with h
          subst h
          unfold sheetMatchAt at hm
          cases hd : dropLit sheetLit (c :: cs) with
          | none => rw [hd] at hm; cases hm
          | some rest =>
              rw [hd] at hm
              dsimp only at hm
              split at hm
              · cases hm
              · injection hm with hm
                subst hm
                intro x hx
                exact List.mem_takeWhile_imp hx
      | none =>
          rw [hm] at h
          exact ih h

theorem findSheetId_none_of_idChars {l : List Char} (h : ∀ c ∈ l, idChar c = true) :
    findSheetId l = none := by
  induction l with
  | nil => rfl
  | cons c cs ih =>
      unfold findSheetId
      have hm : sheetMatchAt (c :: cs) = none := by
        unfold sheetMatchAt
        have hd : dropLit sheetLit (c :: cs) = none := by
          have hc : c ≠ '/' := idChar_ne_slash (h c (List.mem_cons_self c cs))
          show dropLit ('/' :: "spreadsheets/d/".data) (c :: cs) = none
          unfold dropLit
          rw [if_neg hc]
        rw [hd]
      rw [hm]
      exact ih fun x hx => h x (List.mem_cons_of_mem c hx)

/-- Claim C10: `normalize_sheet_id` is idempotent — extracting an id
from a URL yields a string of id characters that a second application
leaves unchanged, and a non-matching input is merely stripped, which a
second application also leaves unchanged. -/
theorem C10_normalize_sheet_id_idempotent (v : String) :
    normalize_sheet_id (normalize_sheet_id v) = normalize_sheet_id v := by
  cases hf : findSheetId (stripS v).data with
  | some g =>
      have hv : normalize_sheet_id v = String.mk g := by
        unfold normalize_sheet_id
        dsimp only
        rw [hf]
      rw [hv]
      have hg : ∀ c ∈ g, idChar c = true := findSheetId_chars hf
      have hstrip : stripS (String.mk g) = String.mk g :=
        congrArg String.mk (stripChars_of_idChars hg)
      unfold normalize_sheet_id
      dsimp only
      rw [hstrip]
      rw [findSheetId_none_of_idChars hg]
  | none =>
      have hv : normalize_sheet_id v = stripS v := by
        unfold normalize_sheet_id
        dsimp only
        rw [hf]
      rw [hv]
      unfold normalize_sheet_id
      dsimp only
      rw [stripS_idem v, hf]

end Checklist
